import Mathlib

/-!
Verification of the attendance extraction/consolidation core of the
automated-padc-processor repository.

The embedding follows the Python sources:
  - src/print_ada_consolidation_FIXED.py (scanners, boundary resolution,
    overlap repair, extraction, month-restricted consolidation)
  - src/ADA_Audit_GUI.py (adjust_program_boundaries, consolidate_attendance_data)
  - src/check_available_months.py (the same month scanner)
  - src/test_display_values.py (the same pipeline, consolidation storing all keys)

Spreadsheets are modelled as lists of rows holding the four columns the core
reads (program name, month, age band, attendance value); cells are empty
(NaN), text, or numbers (rationals stand in for Python floats).  Row indices
are 1-based integers as in the sources.  Python dicts that are only ever
written with fresh keys are modelled as association lists in insertion
order; the raw-extraction dict, whose later writes may repeat a key, is
modelled as the ordered log of its writes.
-/

namespace PADC

/-- A spreadsheet cell: empty (pandas NaN), text, or a number. -/
inductive Cell where
  | empty : Cell
  | str : String → Cell
  | num : ℚ → Cell
deriving DecidableEq, Repr

/-- An attendance value read from the value column: NaN or a number
(spec section 6 fixes this column as numeric). -/
inductive Val where
  | nan : Val
  | num : ℚ → Val
deriving DecidableEq, Repr

/-- One sheet row, restricted to the four columns the core reads:
column 1 (program name), column 2 (month), column 4 (age band),
column 35 (attendance value). -/
structure Row where
  program : Cell
  month : Cell
  age : Cell
  value : Val
deriving DecidableEq, Repr

abbrev Sheet := List Row

/-- Python `int(cell)` guarded by `pd.isna`, as the month scan performs it:
NaN gives none (the row is skipped before parsing), a string parses as an
integer literal (a ValueError gives none), a number truncates toward zero. -/
def cellToInt : Cell → Option Int
  | Cell.empty => none
  | Cell.str s => s.toInt?
  | Cell.num q => some (q.num.tdiv (q.den : Int))

/-- Rendering a cell inside an f-string, as extraction does when it builds
the composite key from the month and age cells. -/
def cellRender : Cell → String
  | Cell.empty => "nan"
  | Cell.str s => s
  | Cell.num q => if q.den = 1 then toString q.num else toString q

/-- find_rows_containing_program_name's loop: 1-based row indices whose
program column equals the name exactly (enumerate with start=idx). -/
def progAux : Sheet → Int → String → List Int
  | [], _, _ => []
  | row :: rest, idx, name =>
    if row.program = Cell.str name then idx :: progAux rest (idx + 1) name
    else progAux rest (idx + 1) name

/-- find_rows_containing_program_name from print_ada_consolidation_FIXED.py. -/
def find_rows_containing_program_name (sheet : Sheet) (name : String) : List Int :=
  progAux sheet 1 name

/-- find_rows_containing_month_number's loop: skip NaN cells, skip cells
whose int(...) raises, collect indices where the parsed value equals the
queried month (enumerate with start=idx). -/
def monthAux : Sheet → Int → Int → List Int
  | [], _, _ => []
  | row :: rest, idx, m =>
    match cellToInt row.month with
    | some n => if n = m then idx :: monthAux rest (idx + 1) m else monthAux rest (idx + 1) m
    | none => monthAux rest (idx + 1) m

/-- find_rows_containing_month_number, identical in
print_ada_consolidation_FIXED.py and check_available_months.py. -/
def find_rows_containing_month_number (sheet : Sheet) (m : Int) : List Int :=
  monthAux sheet 1 m

/-- find_program_boundary_rows: (None, None) on the empty list, otherwise
(min, max) of the row numbers, with Python min/max as left folds. -/
def find_program_boundary_rows (l : List Int) : Option Int × Option Int :=
  match l with
  | [] => (none, none)
  | x :: xs => (some (xs.foldl min x), some (xs.foldl max x))

theorem foldl_min_le (xs : List Int) : ∀ (x y : Int), y ∈ x :: xs → xs.foldl min x ≤ y := by
  induction xs with
  | nil =>
    intro x y hy
    simp only [List.mem_singleton] at hy
    simp [hy]
  | cons z zs ih =>
    intro x y hy
    simp only [List.foldl_cons]
    rcases List.mem_cons.mp hy with h | h
    · subst h
      exact le_trans (ih (min y z) (min y z) (List.mem_cons_self _ _)) (min_le_left _ _)
    · rcases List.mem_cons.mp h with h2 | h2
      · subst h2
        exact le_trans (ih (min x y) (min x y) (List.mem_cons_self _ _)) (min_le_right _ _)
      · exact ih (min x z) y (List.mem_cons_of_mem _ h2)

theorem foldl_max_ge (xs : List Int) : ∀ (x y : Int), y ∈ x :: xs → y ≤ xs.foldl max x := by
  induction xs with
  | nil =>
    intro x y hy
    simp only [List.mem_singleton] at hy
    simp [hy]
  | cons z zs ih =>
    intro x y hy
    simp only [List.foldl_cons]
    rcases List.mem_cons.mp hy with h | h
    · subst h
      exact le_trans (le_max_left _ _) (ih (max y z) (max y z) (List.mem_cons_self _ _))
    · rcases List.mem_cons.mp h with h2 | h2
      · subst h2
        exact le_trans (le_max_right _ _) (ih (max x y) (max x y) (List.mem_cons_self _ _))
      · exact ih (max x z) y (List.mem_cons_of_mem _ h2)

theorem foldl_min_mem (xs : List Int) : ∀ x : Int, xs.foldl min x ∈ x :: xs := by
  induction xs with
  | nil => intro x; simp
  | cons z zs ih =>
    intro x
    simp only [List.foldl_cons]
    have h := ih (min x z)
    rcases List.mem_cons.mp h with h1 | h1
    · rcases min_choice x z with hm | hm
      · exact List.mem_cons.mpr (Or.inl (h1.trans hm))
      · exact List.mem_cons.mpr (Or.inr (List.mem_cons.mpr (Or.inl (h1.trans hm))))
    · exact List.mem_cons.mpr (Or.inr (List.mem_cons.mpr (Or.inr h1)))

theorem foldl_max_mem (xs : List Int) : ∀ x : Int, xs.foldl max x ∈ x :: xs := by
  induction xs with
  | nil => intro x; simp
  | cons z zs ih =>
    intro x
    simp only [List.foldl_cons]
    have h := ih (max x z)
    rcases List.mem_cons.mp h with h1 | h1
    · rcases max_choice x z with hm | hm
      · exact List.mem_cons.mpr (Or.inl (h1.trans hm))
      · exact List.mem_cons.mpr (Or.inr (List.mem_cons.mpr (Or.inl (h1.trans hm))))
    · exact List.mem_cons.mpr (Or.inr (List.mem_cons.mpr (Or.inr h1)))

/-- C2: boundary resolution returns (absent, absent) on the empty row list,
and on every nonempty row list it returns (some a, some b) where a is the
minimum of the list and b the maximum. -/
theorem boundary_rows_minmax_spec :
    find_program_boundary_rows [] = (none, none) ∧
    ∀ (x : Int) (xs : List Int), ∃ a b : Int,
      find_program_boundary_rows (x :: xs) = (some a, some b) ∧
      a ∈ x :: xs ∧ b ∈ x :: xs ∧ ∀ y ∈ x :: xs, a ≤ y ∧ y ≤ b := by
  refine ⟨rfl, ?_⟩
  intro x xs
  refine ⟨xs.foldl min x, xs.foldl max x, rfl, foldl_min_mem xs x, foldl_max_mem xs x, ?_⟩
  intro y hy
  exact ⟨foldl_min_le xs x y hy, foldl_max_ge xs x y hy⟩

/-- Reading the sheet at a 1-based row index, as `iloc[r - 1]` does for the
indices the scanners produce (all at least 1; negative pandas indexing is
outside the modelled domain). -/
def rowAt (sheet : Sheet) (r : Int) : Option Row :=
  if 1 ≤ r then sheet.get? (r - 1).toNat else none

theorem monthAux_mem (sheet : Sheet) : ∀ (i m r : Int),
    r ∈ monthAux sheet i m ↔
      ∃ j : Nat, ∃ row : Row, sheet.get? j = some row ∧ cellToInt row.month = some m ∧
        r = i + j := by
  induction sheet with
  | nil => intro i m r; simp [monthAux]
  | cons row rest ih =>
    intro i m r
    constructor
    · intro hr
      unfold monthAux at hr
      rcases hcell : cellToInt row.month with _ | n
      · rw [hcell] at hr
        rcases (ih (i + 1) m r).mp hr with ⟨j, row2, hget, hparse, hrij⟩
        exact ⟨j + 1, row2, by simpa using hget, hparse, by push_cast; omega⟩
      · rw [hcell] at hr
        by_cases hn : n = m
        · subst hn
          simp only [if_pos rfl] at hr
          rcases List.mem_cons.mp hr with h | h
          · exact ⟨0, row, rfl, hcell, by omega⟩
          · rcases (ih (i + 1) n r).mp h with ⟨j, row2, hget, hparse, hrij⟩
            exact ⟨j + 1, row2, by simpa using hget, hparse, by push_cast; omega⟩
        · simp only [if_neg hn] at hr
          rcases (ih (i + 1) m r).mp hr with ⟨j, row2, hget, hparse, hrij⟩
          exact ⟨j + 1, row2, by simpa using hget, hparse, by push_cast; omega⟩
    · rintro ⟨j, row2, hget, hparse, hrij⟩
      unfold monthAux
      match j, hget with
      | 0, hget =>
        have hrow : row = row2 := by simpa using hget
        subst hrow
        rw [hparse]
        simp only [if_pos rfl]
        exact List.mem_cons.mpr (Or.inl (by omega))
      | Nat.succ j2, hget =>
        have hmem : r ∈ monthAux rest (i + 1) m := by
          refine (ih (i + 1) m r).mpr ⟨j2, row2, by simpa using hget, hparse, by push_cast at hrij ⊢; omega⟩
        rcases cellToInt row.month with _ | n
        · exact hmem
        · by_cases hn : n = m
          · subst hn
            simp only [if_pos rfl]
            exact List.mem_cons.mpr (Or.inr hmem)
          · simp only [if_neg hn]
            exact hmem

theorem monthAux_sorted (sheet : Sheet) : ∀ (i m : Int),
    List.Sorted (· < ·) (monthAux sheet i m) ∧ ∀ r ∈ monthAux sheet i m, i ≤ r := by
  induction sheet with
  | nil => intro i m; simp [monthAux]
  | cons row rest ih =>
    intro i m
    unfold monthAux
    rcases cellToInt row.month with _ | n
    · refine ⟨(ih (i + 1) m).1, ?_⟩
      intro r hr
      have := (ih (i + 1) m).2 r hr
      omega
    · by_cases hn : n = m
      · subst hn
        simp only [if_pos rfl]
        constructor
        · refine List.sorted_cons.mpr ⟨?_, (ih (i + 1) n).1⟩
          intro r hr
          have := (ih (i + 1) n).2 r hr
          omega
        · intro r hr
          rcases List.mem_cons.mp hr with h | h
          · omega
          · have := (ih (i + 1) n).2 r h
            omega
      · simp only [if_neg hn]
        refine ⟨(ih (i + 1) m).1, ?_⟩
        intro r hr
        have := (ih (i + 1) m).2 r hr
        omega

/-- C9: the month scan is total (it never raises: empty or unparseable month
cells are skipped by construction), and its result holds exactly the 1-based
indices of the rows whose month cell parses to the queried month, in
ascending row order. -/
theorem month_scan_spec (sheet : Sheet) (m : Int) :
    (∀ r : Int, r ∈ find_rows_containing_month_number sheet m ↔
      ∃ row : Row, rowAt sheet r = some row ∧ cellToInt row.month = some m) ∧
    List.Sorted (· < ·) (find_rows_containing_month_number sheet m) := by
  constructor
  · intro r
    unfold find_rows_containing_month_number
    rw [monthAux_mem sheet 1 m r]
    constructor
    · rintro ⟨j, row, hget, hparse, hrij⟩
      refine ⟨row, ?_, hparse⟩
      unfold rowAt
      rw [if_pos (by omega)]
      have : (r - 1).toNat = j := by omega
      rw [this]
      exact hget
    · rintro ⟨row, hat, hparse⟩
      unfold rowAt at hat
      by_cases h1 : 1 ≤ r
      · rw [if_pos h1] at hat
        exact ⟨(r - 1).toNat, row, hat, hparse, by omega⟩
      · rw [if_neg h1] at hat
        exact absurd hat (by simp)
  · exact (monthAux_sorted sheet 1 m).1

/-- One program's boundary: {"start": ..., "stop": ...} with None as absent. -/
@[ext] structure Boundary where
  start : Option Int
  stop : Option Int
deriving DecidableEq, Repr

/-- The program_boundaries dict: one boundary per program short code, in the
fixed insertion order of program_name_mappings. -/
@[ext] structure ProgramBoundaries where
  Prog_C : Boundary
  Prog_C_TK : Boundary
  Prog_C_CM : Boundary
  Prog_C_SYC : Boundary
  Prog_N : Boundary
  Prog_N_TK : Boundary
  Prog_N_CM : Boundary
  Prog_N_SYC : Boundary
  Prog_J : Boundary
  Prog_J_TK : Boundary
  Prog_K : Boundary
  Prog_K_TK : Boundary
deriving DecidableEq, Repr

/-- Resolution of one program: scan for its full name, then reduce the
matching rows to a (start, stop) pair. -/
def resolveOne (sheet : Sheet) (name : String) : Boundary :=
  let p := find_program_boundary_rows (find_rows_containing_program_name sheet name)
  ⟨p.1, p.2⟩

/-- Steps 4 and the loop of print_ada_consolidation_FIXED.py: resolve every
program of program_name_mappings independently (the full-name strings are
the source's, double spaces included). -/
def resolveBoundaries (sheet : Sheet) : ProgramBoundaries where
  Prog_C := resolveOne sheet "Program C Charter Resident"
  Prog_C_TK := resolveOne sheet "Program C Charter Resident -  Transitional Kindergarten(TK)"
  Prog_C_CM := resolveOne sheet "Program C Charter Resident -  McClellan(CM)"
  Prog_C_SYC := resolveOne sheet "Program C Charter Resident -  Sac Youth Center(SYC)"
  Prog_N := resolveOne sheet "Program N Non-Resident Charter"
  Prog_N_TK := resolveOne sheet "Program N Non-Resident Charter -  Transitional Kindergarten(TK)"
  Prog_N_CM := resolveOne sheet "Program N Non-Resident Charter -  McClellan(CM)"
  Prog_N_SYC := resolveOne sheet "Program N Non-Resident Charter -  Sac Youth Center(SYC)"
  Prog_J := resolveOne sheet "Program J Indep Study Charter Resident"
  Prog_J_TK := resolveOne sheet "Program J Indep Study Charter Non-Resident -  Transitional Kindergarten(TK)"
  Prog_K := resolveOne sheet "Program K Indep Study Charter Non-Resident"
  Prog_K_TK := resolveOne sheet "Program K Indep Study Charter Non-Resident -  Transitional Kindergarten(TK)"

/-- Repair step 1: if Prog_C_TK.start and Prog_N.start are both present,
set Prog_C.stop to Prog_C_TK.start - 1. -/
def adjStep1 (b : ProgramBoundaries) : ProgramBoundaries :=
  match b.Prog_C_TK.start, b.Prog_N.start with
  | some a, some _ => { b with Prog_C := ⟨b.Prog_C.start, some (a - 1)⟩ }
  | _, _ => b

/-- Repair step 2: if Prog_N.start is present, set Prog_C_TK.stop to
Prog_N.start - 1. -/
def adjStep2 (b : ProgramBoundaries) : ProgramBoundaries :=
  match b.Prog_N.start with
  | some n => { b with Prog_C_TK := ⟨b.Prog_C_TK.start, some (n - 1)⟩ }
  | none => b

/-- Repair step 3: if Prog_N_TK.start is present, set Prog_N.stop to
Prog_N_TK.start - 1. -/
def adjStep3 (b : ProgramBoundaries) : ProgramBoundaries :=
  match b.Prog_N_TK.start with
  | some u => { b with Prog_N := ⟨b.Prog_N.start, some (u - 1)⟩ }
  | none => b

/-- First iteration of the chain loop over [Prog_N_TK, Prog_J, Prog_K]:
if Prog_N_TK.start and Prog_J.start are both present, set Prog_N_TK.stop
to Prog_J.start - 1. -/
def adjStep4 (b : ProgramBoundaries) : ProgramBoundaries :=
  match b.Prog_N_TK.start, b.Prog_J.start with
  | some _, some j => { b with Prog_N_TK := ⟨b.Prog_N_TK.start, some (j - 1)⟩ }
  | _, _ => b

/-- Second iteration of the chain loop: if Prog_J.start and Prog_K.start are
both present, set Prog_J.stop to Prog_K.start - 1. -/
def adjStep5 (b : ProgramBoundaries) : ProgramBoundaries :=
  match b.Prog_J.start, b.Prog_K.start with
  | some _, some k => { b with Prog_J := ⟨b.Prog_J.start, some (k - 1)⟩ }
  | _, _ => b

/-- adjust_program_boundaries (ADA_Audit_GUI.py), identical to step 5 of
print_ada_consolidation_FIXED.py: the ordered overlap-repair pass. -/
def adjust_program_boundaries (b : ProgramBoundaries) : ProgramBoundaries :=
  adjStep5 (adjStep4 (adjStep3 (adjStep2 (adjStep1 b))))

/-- Closed form of the repair pass: starts are never written, each clause
reads only start fields, so the five writes commute into one record update. -/
theorem adjust_eq (b : ProgramBoundaries) :
    adjust_program_boundaries b =
      { b with
        Prog_C := ⟨b.Prog_C.start,
          match b.Prog_C_TK.start, b.Prog_N.start with
          | some a, some _ => some (a - 1)
          | _, _ => b.Prog_C.stop⟩,
        Prog_C_TK := ⟨b.Prog_C_TK.start,
          match b.Prog_N.start with
          | some n => some (n - 1)
          | none => b.Prog_C_TK.stop⟩,
        Prog_N := ⟨b.Prog_N.start,
          match b.Prog_N_TK.start with
          | some u => some (u - 1)
          | none => b.Prog_N.stop⟩,
        Prog_N_TK := ⟨b.Prog_N_TK.start,
          match b.Prog_N_TK.start, b.Prog_J.start with
          | some _, some j => some (j - 1)
          | _, _ => b.Prog_N_TK.stop⟩,
        Prog_J := ⟨b.Prog_J.start,
          match b.Prog_J.start, b.Prog_K.start with
          | some _, some k => some (k - 1)
          | _, _ => b.Prog_J.stop⟩ } := by
  cases hc : b.Prog_C_TK.start <;> cases hn : b.Prog_N.start <;>
    cases hu : b.Prog_N_TK.start <;> cases hj : b.Prog_J.start <;>
    cases hk : b.Prog_K.start <;>
    simp [adjust_program_boundaries, adjStep1, adjStep2, adjStep3, adjStep4, adjStep5,
      ProgramBoundaries.ext_iff, Boundary.ext_iff, hc, hn, hu, hj, hk]

/-- C5: the ordered overlap-repair pass is idempotent — applying it twice
yields exactly the boundaries of applying it once, for every boundary set. -/
theorem adjust_idempotent (b : ProgramBoundaries) :
    adjust_program_boundaries (adjust_program_boundaries b) = adjust_program_boundaries b := by
  rw [adjust_eq b, adjust_eq]
  cases hc : b.Prog_C_TK.start <;> cases hn : b.Prog_N.start <;>
    cases hu : b.Prog_N_TK.start <;> cases hj : b.Prog_J.start <;>
    cases hk : b.Prog_K.start <;>
    simp [hc, hn, hu, hj, hk]

/-- Concrete boundary set for the spec's example: Prog_C_TK starts at row 50,
Prog_N at row 80, every other boundary unresolved except Prog_C. -/
def exampleBoundaries : ProgramBoundaries where
  Prog_C := ⟨some 10, some 60⟩
  Prog_C_TK := ⟨some 50, some 70⟩
  Prog_C_CM := ⟨none, none⟩
  Prog_C_SYC := ⟨none, none⟩
  Prog_N := ⟨some 80, some 95⟩
  Prog_N_TK := ⟨none, none⟩
  Prog_N_CM := ⟨none, none⟩
  Prog_N_SYC := ⟨none, none⟩
  Prog_J := ⟨none, none⟩
  Prog_J_TK := ⟨none, none⟩
  Prog_K := ⟨none, none⟩
  Prog_K_TK := ⟨none, none⟩

/-- C7: repair step 1 sets Prog_C.stop to Prog_C_TK.start - 1 whenever
Prog_C_TK.start and Prog_N.start are both present, step 2 sets
Prog_C_TK.stop to Prog_N.start - 1 whenever Prog_N.start is present, and in
particular a boundary set with Prog_C_TK.start = 50 and Prog_N.start = 80
repairs to Prog_C.stop = 49 and Prog_C_TK.stop = 79. -/
theorem adjust_steps_set_stops (b : ProgramBoundaries) (a n : Int) :
    (b.Prog_C_TK.start = some a → b.Prog_N.start = some n →
      (adjust_program_boundaries b).Prog_C.stop = some (a - 1)) ∧
    (b.Prog_N.start = some n →
      (adjust_program_boundaries b).Prog_C_TK.stop = some (n - 1)) ∧
    ((adjust_program_boundaries exampleBoundaries).Prog_C.stop = some 49 ∧
      (adjust_program_boundaries exampleBoundaries).Prog_C_TK.stop = some 79) := by
  refine ⟨?_, ?_, by decide⟩
  · intro ha hn
    rw [adjust_eq b]
    simp [ha, hn]
  · intro hn
    rw [adjust_eq b]
    simp [hn]

/-- The finalized-boundary invariant of the spec's data model: when start and
stop are both present, start is at most stop. -/
def boundaryOk (b : Boundary) : Bool :=
  match b.start, b.stop with
  | some s, some t => decide (s ≤ t)
  | _, _ => true

/-- The invariant over the whole boundary set. -/
def boundariesOk (B : ProgramBoundaries) : Bool :=
  boundaryOk B.Prog_C && boundaryOk B.Prog_C_TK && boundaryOk B.Prog_C_CM &&
  boundaryOk B.Prog_C_SYC && boundaryOk B.Prog_N && boundaryOk B.Prog_N_TK &&
  boundaryOk B.Prog_N_CM && boundaryOk B.Prog_N_SYC && boundaryOk B.Prog_J &&
  boundaryOk B.Prog_J_TK && boundaryOk B.Prog_K && boundaryOk B.Prog_K_TK

/-- Ordered-layout condition on two resolved starts: when both programs were
found, the first starts strictly above the second. -/
def startsOrderedOk (x y : Option Int) : Bool :=
  match x, y with
  | some s, some t => decide (s < t)
  | _, _ => true

theorem resolveOne_ok (sheet : Sheet) (name : String) :
    boundaryOk (resolveOne sheet name) = true := by
  unfold resolveOne
  cases hl : find_rows_containing_program_name sheet name with
  | nil => rfl
  | cons x xs =>
    have h1 := foldl_min_le xs x x (List.mem_cons_self _ _)
    have h2 := foldl_max_ge xs x x (List.mem_cons_self _ _)
    simp only [find_program_boundary_rows, boundaryOk]
    simp only [decide_eq_true_eq]
    omega

theorem boundaryOk_adjusted (x : Option Int) (a : Int)
    (h : startsOrderedOk x (some a) = true) :
    boundaryOk ⟨x, some (a - 1)⟩ = true := by
  cases x with
  | none => rfl
  | some s =>
    simp only [startsOrderedOk, decide_eq_true_eq] at h
    simp only [boundaryOk, decide_eq_true_eq]
    omega

/-- C6 (amended): after resolution and the repair pass, every boundary with
both endpoints present satisfies start ≤ stop, for every sheet whose
resolved layout is ordered: whenever two programs that a repair step relates
(C before C_TK, C_TK before N, N before N_TK, N_TK before J, J before K) are
both found, the first one's start row is strictly below the second one's.
Without the ordering hypotheses the invariant fails (see the
counterexample). -/
theorem adjust_ok_of_ordered_layout (sheet : Sheet)
    (h1 : startsOrderedOk (resolveBoundaries sheet).Prog_C.start
      (resolveBoundaries sheet).Prog_C_TK.start = true)
    (h2 : startsOrderedOk (resolveBoundaries sheet).Prog_C_TK.start
      (resolveBoundaries sheet).Prog_N.start = true)
    (h3 : startsOrderedOk (resolveBoundaries sheet).Prog_N.start
      (resolveBoundaries sheet).Prog_N_TK.start = true)
    (h4 : startsOrderedOk (resolveBoundaries sheet).Prog_N_TK.start
      (resolveBoundaries sheet).Prog_J.start = true)
    (h5 : startsOrderedOk (resolveBoundaries sheet).Prog_J.start
      (resolveBoundaries sheet).Prog_K.start = true) :
    boundariesOk (adjust_program_boundaries (resolveBoundaries sheet)) = true := by
  have hC : boundaryOk (resolveBoundaries sheet).Prog_C = true := resolveOne_ok sheet _
  have hCTK : boundaryOk (resolveBoundaries sheet).Prog_C_TK = true := resolveOne_ok sheet _
  have hCCM : boundaryOk (resolveBoundaries sheet).Prog_C_CM = true := resolveOne_ok sheet _
  have hCSYC : boundaryOk (resolveBoundaries sheet).Prog_C_SYC = true := resolveOne_ok sheet _
  have hN : boundaryOk (resolveBoundaries sheet).Prog_N = true := resolveOne_ok sheet _
  have hNTK : boundaryOk (resolveBoundaries sheet).Prog_N_TK = true := resolveOne_ok sheet _
  have hNCM : boundaryOk (resolveBoundaries sheet).Prog_N_CM = true := resolveOne_ok sheet _
  have hNSYC : boundaryOk (resolveBoundaries sheet).Prog_N_SYC = true := resolveOne_ok sheet _
  have hJ : boundaryOk (resolveBoundaries sheet).Prog_J = true := resolveOne_ok sheet _
  have hJTK : boundaryOk (resolveBoundaries sheet).Prog_J_TK = true := resolveOne_ok sheet _
  have hK : boundaryOk (resolveBoundaries sheet).Prog_K = true := resolveOne_ok sheet _
  have hKTK : boundaryOk (resolveBoundaries sheet).Prog_K_TK = true := resolveOne_ok sheet _
  set B := resolveBoundaries sheet with hB
  rw [adjust_eq]
  simp only [boundariesOk, Bool.and_eq_true]
  refine ⟨⟨⟨⟨⟨⟨⟨⟨⟨⟨⟨?_, ?_⟩, hCCM⟩, hCSYC⟩, ?_⟩, ?_⟩, hNCM⟩, hNSYC⟩, ?_⟩, hJTK⟩, hK⟩, hKTK⟩
  · cases hc : B.Prog_C_TK.start with
    | none => exact hC
    | some a =>
      cases hn : B.Prog_N.start with
      | none => exact hC
      | some n => exact boundaryOk_adjusted _ a (by rw [← hc]; exact h1)
  · cases hn : B.Prog_N.start with
    | none => exact hCTK
    | some n => exact boundaryOk_adjusted _ n (by rw [← hn]; exact h2)
  · cases hu : B.Prog_N_TK.start with
    | none => exact hN
    | some u => exact boundaryOk_adjusted _ u (by rw [← hu]; exact h3)
  · cases hu : B.Prog_N_TK.start with
    | none => rfl
    | some u =>
      cases hj : B.Prog_J.start with
      | none =>
        show boundaryOk ⟨some u, B.Prog_N_TK.stop⟩ = true
        rw [← hu]
        exact hNTK
      | some j => exact boundaryOk_adjusted _ j (by rw [← hu, ← hj]; exact h4)
  · cases hj : B.Prog_J.start with
    | none => rfl
    | some j =>
      cases hk : B.Prog_K.start with
      | none =>
        show boundaryOk ⟨some j, B.Prog_J.stop⟩ = true
        rw [← hj]
        exact hJ
      | some k => exact boundaryOk_adjusted _ k (by rw [← hj, ← hk]; exact h5)

/-- Sheet whose program blocks violate the layout order the repair pass
assumes: Program N appears at row 1, above the Prog_C_TK block at row 2. -/
def outOfOrderSheet : Sheet :=
  [⟨Cell.str "Program N Non-Resident Charter", Cell.empty, Cell.empty, Val.nan⟩,
   ⟨Cell.str "Program C Charter Resident -  Transitional Kindergarten(TK)", Cell.empty, Cell.empty, Val.nan⟩]

/-- C6 (counterexample): on a sheet where Program N is listed above the
Prog_C_TK block, resolution followed by the repair pass leaves Prog_C_TK
with start = 2 and stop = 0, so a finalized boundary with both endpoints
present violates start ≤ stop. -/
theorem boundaries_ok_counterexample :
    (adjust_program_boundaries (resolveBoundaries outOfOrderSheet)).Prog_C_TK.start = some 2 ∧
    (adjust_program_boundaries (resolveBoundaries outOfOrderSheet)).Prog_C_TK.stop = some 0 ∧
    boundariesOk (adjust_program_boundaries (resolveBoundaries outOfOrderSheet)) = false := by
  decide

/-- Sheet with the six repair-related program blocks in the expected
top-to-bottom order, one row each. -/
def orderedSheet : Sheet :=
  [⟨Cell.str "Program C Charter Resident", Cell.empty, Cell.empty, Val.nan⟩,
   ⟨Cell.str "Program C Charter Resident -  Transitional Kindergarten(TK)", Cell.empty, Cell.empty, Val.nan⟩,
   ⟨Cell.str "Program N Non-Resident Charter", Cell.empty, Cell.empty, Val.nan⟩,
   ⟨Cell.str "Program N Non-Resident Charter -  Transitional Kindergarten(TK)", Cell.empty, Cell.empty, Val.nan⟩,
   ⟨Cell.str "Program J Indep Study Charter Resident", Cell.empty, Cell.empty, Val.nan⟩,
   ⟨Cell.str "Program K Indep Study Charter Non-Resident", Cell.empty, Cell.empty, Val.nan⟩]

theorem adjust_ok_of_ordered_layout_witness :
    boundariesOk (adjust_program_boundaries (resolveBoundaries orderedSheet)) = true :=
  adjust_ok_of_ordered_layout orderedSheet (by decide) (by decide) (by decide)
    (by decide) (by decide)

/-- The composite key f-string of extraction:
code ++ "_Month_" ++ month cell ++ "_" ++ age cell ++ ": ". -/
def mkKey (code : String) (monthCell ageCell : Cell) : String :=
  code ++ "_Month_" ++ cellRender monthCell ++ "_" ++ cellRender ageCell ++ ": "

/-- Inner loop of extract_student_attendance_data over the boundary dict for
one row: every program whose boundary has both endpoints present and whose
span contains the row emits a write (the loop has no break; a row the sheet
does not hold is skipped, matching the guarded pipeline where scanner rows
are always in range).  Each write is tagged with the emitting program's
code; the raw dict is the log with the tags dropped. -/
def extractRowWrites (bounds : List (String × Boundary)) (sheet : Sheet) (r : Int) :
    List (String × String × Val) :=
  match bounds with
  | [] => []
  | (code, b) :: rest =>
    match b.start, b.stop with
    | some s, some t =>
      if s ≤ r ∧ r ≤ t then
        match rowAt sheet r with
        | some row =>
          (code, mkKey code row.month row.age, row.value) :: extractRowWrites rest sheet r
        | none => extractRowWrites rest sheet r
      else extractRowWrites rest sheet r
    | _, _ => extractRowWrites rest sheet r

/-- Middle loop: over the rows carrying the current month. -/
def extractRowsWrites (bounds : List (String × Boundary)) (sheet : Sheet) :
    List Int → List (String × String × Val)
  | [] => []
  | r :: rest => extractRowWrites bounds sheet r ++ extractRowsWrites bounds sheet rest

/-- Outer loop: over monthly_attendance_by_program (the month key itself is
never read by the body, only the row lists are). -/
def extractWrites : List (Int × List Int) → List (String × Boundary) → Sheet →
    List (String × String × Val)
  | [], _, _ => []
  | (_, rows) :: rest, bounds, sheet =>
    extractRowsWrites bounds sheet rows ++ extractWrites rest bounds sheet

/-- extract_student_attendance_data: the raw attendance dict as the ordered
log of its writes (a later duplicate key overwrites in the Python dict;
keys and values are exactly the written pairs). -/
def extract_student_attendance_data (monthly : List (Int × List Int))
    (bounds : List (String × Boundary)) (sheet : Sheet) : List (String × Val) :=
  (extractWrites monthly bounds sheet).map (fun w => (w.2.1, w.2.2))

theorem extractRowWrites_filter_nil (p : String) (sheet : Sheet) (r : Int) :
    ∀ bounds : List (String × Boundary),
      (∀ b ∈ bounds, (b : String × Boundary).1 = p →
        b.2.start = none ∨ b.2.stop = none) →
      (extractRowWrites bounds sheet r).filter (fun w => w.1 == p) = [] := by
  intro bounds
  induction bounds with
  | nil => intro h; rfl
  | cons hd rest ih =>
    intro h
    obtain ⟨code, b⟩ := hd
    have hrest := fun b hb => h b (List.mem_cons_of_mem _ hb)
    have hhd := h (code, b) (List.mem_cons_self _ _)
    cases hs : b.start with
    | none => simp only [extractRowWrites, hs]; exact ih hrest
    | some s =>
      cases ht : b.stop with
      | none => simp only [extractRowWrites, hs, ht]; exact ih hrest
      | some t =>
        simp only [extractRowWrites, hs, ht]
        by_cases hin : s ≤ r ∧ r ≤ t
        · rw [if_pos hin]
          cases hrow : rowAt sheet r with
          | none => exact ih hrest
          | some row =>
            have hcode : code ≠ p := by
              intro hcp
              rcases hhd hcp with h1 | h1
              · rw [hs] at h1; cases h1
              · rw [ht] at h1; cases h1
            rw [List.filter_cons_of_neg (by simpa using hcode)]
            exact ih hrest
        · rw [if_neg hin]
          exact ih hrest

theorem extractRowsWrites_filter_nil (p : String) (sheet : Sheet)
    (bounds : List (String × Boundary))
    (h : ∀ b ∈ bounds, (b : String × Boundary).1 = p →
      b.2.start = none ∨ b.2.stop = none) :
    ∀ rows : List Int,
      (extractRowsWrites bounds sheet rows).filter (fun w => w.1 == p) = [] := by
  intro rows
  induction rows with
  | nil => rfl
  | cons r rest ih =>
    simp only [extractRowsWrites, List.filter_append, ih, List.append_nil]
    exact extractRowWrites_filter_nil p sheet r bounds h

/-- C10: extraction assigns a row to a program only when that program's
boundary has both start and stop present — whenever every boundary entry
carrying a program's code has an absent start or an absent stop, the
extraction log holds no write for that program, so the raw attendance map
holds no entry keyed with its code. -/
theorem extract_requires_full_bounds (monthly : List (Int × List Int))
    (bounds : List (String × Boundary)) (sheet : Sheet) (p : String)
    (h : ∀ b ∈ bounds, (b : String × Boundary).1 = p →
      b.2.start = none ∨ b.2.stop = none) :
    (extractWrites monthly bounds sheet).filter (fun w => w.1 == p) = [] := by
  induction monthly with
  | nil => rfl
  | cons hd rest ih =>
    obtain ⟨mth, rows⟩ := hd
    simp only [extractWrites, List.filter_append, ih, List.append_nil]
    exact extractRowsWrites_filter_nil p sheet bounds h rows

theorem mem_extractRowWrites (sheet : Sheet) (r : Int) (p : String) (b : Boundary)
    (s t : Int) (row : Row) :
    ∀ bounds : List (String × Boundary), (p, b) ∈ bounds →
      b.start = some s → b.stop = some t → s ≤ r → r ≤ t →
      rowAt sheet r = some row →
      (p, mkKey p row.month row.age, row.value) ∈ extractRowWrites bounds sheet r := by
  intro bounds
  induction bounds with
  | nil => intro hmem; cases hmem
  | cons hd rest ih =>
    intro hmem hs ht hsr hrt hrow
    obtain ⟨code, c⟩ := hd
    rcases List.mem_cons.mp hmem with heq | hmem2
    · obtain ⟨hp, hc⟩ := Prod.mk.injEq .. ▸ heq
      subst hp
      subst hc
      simp only [extractRowWrites, hs, ht]
      rw [if_pos ⟨hsr, hrt⟩, hrow]
      exact List.mem_cons_self _ _
    · have htail := ih hmem2 hs ht hsr hrt hrow
      cases hs2 : c.start with
      | none => simpa only [extractRowWrites, hs2] using htail
      | some s2 =>
        cases ht2 : c.stop with
        | none => simpa only [extractRowWrites, hs2, ht2] using htail
        | some t2 =>
          simp only [extractRowWrites, hs2, ht2]
          by_cases hin : s2 ≤ r ∧ r ≤ t2
          · rw [if_pos hin]
            cases hrow2 : rowAt sheet r with
            | none => exact htail
            | some row2 => exact List.mem_cons_of_mem _ htail
          · rw [if_neg hin]
            exact htail

theorem mem_extractRowsWrites (bounds : List (String × Boundary)) (sheet : Sheet)
    (r : Int) (w : String × String × Val) (hw : w ∈ extractRowWrites bounds sheet r) :
    ∀ rows : List Int, r ∈ rows → w ∈ extractRowsWrites bounds sheet rows := by
  intro rows
  induction rows with
  | nil => intro h; cases h
  | cons x xs ih =>
    intro h
    rcases List.mem_cons.mp h with h1 | h1
    · subst h1
      exact List.mem_append.mpr (Or.inl hw)
    · exact List.mem_append.mpr (Or.inr (ih h1))

/-- C1 (amended): extraction has no first-match tie-break — for every row of
a scanned month list, every program whose boundary is fully present and
whose inclusive span contains the row receives an entry keyed by its own
code in the raw attendance map, later-matching programs included. -/
theorem extract_overlap_all_programs (monthly : List (Int × List Int))
    (bounds : List (String × Boundary)) (sheet : Sheet) (month : Int)
    (rows : List Int) (r : Int) (p : String) (b : Boundary) (s t : Int) (row : Row)
    (h1 : (month, rows) ∈ monthly) (h2 : r ∈ rows) (hmem : (p, b) ∈ bounds)
    (hs : b.start = some s) (ht : b.stop = some t) (hsr : s ≤ r) (hrt : r ≤ t)
    (hrow : rowAt sheet r = some row) :
    (p, mkKey p row.month row.age, row.value) ∈ extractWrites monthly bounds sheet ∧
    (mkKey p row.month row.age, row.value) ∈
      extract_student_attendance_data monthly bounds sheet := by
  have hw : (p, mkKey p row.month row.age, row.value) ∈
      extractRowsWrites bounds sheet rows :=
    mem_extractRowsWrites bounds sheet r _
      (mem_extractRowWrites sheet r p b s t row bounds hmem hs ht hsr hrt hrow) rows h2
  have hmain : (p, mkKey p row.month row.age, row.value) ∈
      extractWrites monthly bounds sheet := by
    clear hw
    induction monthly with
    | nil => cases h1
    | cons hd rest ih =>
      obtain ⟨mth, rws⟩ := hd
      rcases List.mem_cons.mp h1 with heq | hmem2
      · obtain ⟨hm1, hm2⟩ := Prod.mk.injEq .. ▸ heq
        subst hm1
        subst hm2
        exact List.mem_append.mpr (Or.inl (mem_extractRowsWrites bounds sheet r _
          (mem_extractRowWrites sheet r p b s t row bounds hmem hs ht hsr hrt hrow) _ h2))
      · exact List.mem_append.mpr (Or.inr (ih hmem2))
  refine ⟨hmain, ?_⟩
  unfold extract_student_attendance_data
  exact List.mem_map.mpr ⟨_, hmain, rfl⟩

/-- One-row sheet whose single row carries month "1", age band "4-6" and
attendance value 2. -/
def overlapSheet : Sheet := [⟨Cell.str "X", Cell.str "1", Cell.str "4-6", Val.num 2⟩]

/-- Two programs whose spans both contain row 1 (malformed, overlapping
boundaries). -/
def overlapBounds : List (String × Boundary) :=
  [("P1", ⟨some 1, some 1⟩), ("P2", ⟨some 1, some 1⟩)]

/-- Month 1 was found at row 1. -/
def overlapMonthly : List (Int × List Int) := [(1, [1])]

/-- C1 (counterexample): with row 1 inside the spans of both P1 and P2, the
raw attendance map holds an entry keyed by the second (later-matching)
program as well — the extraction loop does not stop at the first matching
boundary, refuting the first-match-wins tie-break. -/
theorem extract_overlap_counterexample :
    extract_student_attendance_data overlapMonthly overlapBounds overlapSheet =
      [("P1_Month_1_4-6: ", Val.num 2), ("P2_Month_1_4-6: ", Val.num 2)] ∧
    ("P2_Month_1_4-6: ", Val.num 2) ∈
      extract_student_attendance_data overlapMonthly overlapBounds overlapSheet := by
  decide

theorem extract_overlap_all_programs_witness :
    ("P2", "P2_Month_1_4-6: ", Val.num 2) ∈
      extractWrites overlapMonthly overlapBounds overlapSheet ∧
    ("P2_Month_1_4-6: ", Val.num 2) ∈
      extract_student_attendance_data overlapMonthly overlapBounds overlapSheet :=
  extract_overlap_all_programs overlapMonthly overlapBounds overlapSheet 1 [1] 1
    "P2" ⟨some 1, some 1⟩ 1 1 ⟨Cell.str "X", Cell.str "1", Cell.str "4-6", Val.num 2⟩
    (by decide) (by decide) (by decide) rfl rfl (by decide) (by decide) rfl

/-- Boundary dict where program P has only a start (half-specified, e.g.
after a manual override) while program Q is fully bounded. -/
def halfBounds : List (String × Boundary) :=
  [("P", ⟨some 1, none⟩), ("Q", ⟨some 1, some 1⟩)]

theorem extract_requires_full_bounds_witness :
    (extractWrites overlapMonthly halfBounds overlapSheet).filter
      (fun w => w.1 == "P") = [] :=
  extract_requires_full_bounds overlapMonthly halfBounds overlapSheet "P" (by decide)

/-- The four fixed age bands. -/
def ageGroups : List String := ["TK-3", "4-6", "7-8", "9-12"]

/-- The consolidation key f-string, built from a program code, an integer
month and an age band, as in consolidate_attendance_data. -/
def mkCKey (code : String) (month : Nat) (g : String) : String :=
  code ++ "_Month_" ++ toString month ++ "_" ++ g ++ ": "

/-- Python raw_attendance_data.get(key, 0): the stored value, or 0 when the
key is absent. -/
def dictGet (raw : String → Option Val) (k : String) : Val :=
  (raw k).getD (Val.num 0)

/-- The guard `child_value and not pd.isna(child_value) and child_value != 0`:
a NaN is truthy but caught by isna; a number passes exactly when nonzero. -/
def usable : Val → Bool
  | Val.nan => false
  | Val.num q => decide (q ≠ 0)

/-- The numeric content of a value (only read under the usable guard, where
it is never the NaN case). -/
def valOf : Val → ℚ
  | Val.nan => 0
  | Val.num q => q

/-- The inner summation of consolidate_attendance_data for one
(parent, month, age band): fold over the child programs, adding each child's
raw value when the guard passes. -/
def consolidateValue (raw : String → Option Val) (children : List String)
    (month : Nat) (g : String) : ℚ :=
  children.foldl (fun total c =>
    if usable (dictGet raw (mkCKey c month g))
    then total + valOf (dictGet raw (mkCKey c month g)) else total) 0

/-- consolidate_attendance_data (ADA_Audit_GUI.py) with the processed month
set exposed as a parameter, as the fixed script's consolidation loop does
when it iterates available_months: for every rule, every processed month and
every age band, store the consolidated sum under the parent's key. -/
def consolidate_attendance_data (raw : String → Option Val)
    (rules : List (String × List String)) (months : List Nat) :
    List (String × ℚ) :=
  rules.flatMap fun pc => months.flatMap fun m => ageGroups.map fun g =>
    (mkCKey pc.1 m g, consolidateValue raw pc.2 m g)

/-- The fixed parent-to-children consolidation rules of the sources. -/
def program_consolidation_rules : List (String × List String) :=
  [("Prog_C", ["Prog_C", "Prog_C_CM", "Prog_C_SYC"]),
   ("Prog_C_TK", ["Prog_C_TK"]),
   ("Prog_N", ["Prog_N", "Prog_N_CM", "Prog_N_SYC"]),
   ("Prog_N_TK", ["Prog_N_TK"]),
   ("Prog_J", ["Prog_J"]),
   ("Prog_J_TK", ["Prog_J_TK"]),
   ("Prog_K", ["Prog_K"]),
   ("Prog_K_TK", ["Prog_K_TK"])]

/-- Spec-side contribution of one child, following the claim's words: the
child's raw value when it is present, non-NaN and not exactly zero; nothing
(zero) when the child is missing, NaN, or exactly zero. -/
def specChildContribution (raw : String → Option Val) (m : Nat) (g : String)
    (c : String) : ℚ :=
  match raw (mkCKey c m g) with
  | some (Val.num q) => if q = 0 then 0 else q
  | _ => 0

theorem consolidate_step_eq (raw : String → Option Val) (m : Nat) (g : String)
    (t : ℚ) (c : String) :
    (if usable (dictGet raw (mkCKey c m g))
      then t + valOf (dictGet raw (mkCKey c m g)) else t)
    = t + specChildContribution raw m g c := by
  unfold dictGet specChildContribution
  cases hv : raw (mkCKey c m g) with
  | none => simp [usable, valOf]
  | some v =>
    cases v with
    | nan => simp [usable, valOf]
    | num q =>
      by_cases hq : q = 0
      · simp [usable, valOf, hq]
      · simp [usable, valOf, hq]

theorem consolidateValue_eq_sum (raw : String → Option Val) (m : Nat)
    (g : String) : ∀ (children : List String) (t : ℚ),
    children.foldl (fun total c =>
      if usable (dictGet raw (mkCKey c m g))
      then total + valOf (dictGet raw (mkCKey c m g)) else total) t
    = t + (children.map (specChildContribution raw m g)).sum := by
  intro children
  induction children with
  | nil => intro t; simp
  | cons c cs ih =>
    intro t
    simp only [List.foldl_cons, List.map_cons, List.sum_cons]
    rw [consolidate_step_eq raw m g t c, ih, add_assoc]

/-- Raw attendance map of the spec's worked example. -/
def exampleRaw : String → Option Val := fun k =>
  if k = "Prog_C_Month_3_4-6: " then some (Val.num 10)
  else if k = "Prog_C_CM_Month_3_4-6: " then some (Val.num 5)
  else none

/-- C3: for every raw map, child list, month and age band, the consolidated
value is the exact sum of the child values that are present, non-NaN and not
exactly zero (missing, NaN and zero children contribute nothing); on the
spec's example raw map, the Prog_C children for month 3, band 4-6 sum
to 15. -/
theorem consolidate_value_sum_spec :
    (∀ (raw : String → Option Val) (children : List String) (m : Nat) (g : String),
      consolidateValue raw children m g
        = (children.map (specChildContribution raw m g)).sum) ∧
    consolidateValue exampleRaw ["Prog_C", "Prog_C_CM", "Prog_C_SYC"] 3 "4-6" = 15 := by
  constructor
  · intro raw children m g
    unfold consolidateValue
    rw [consolidateValue_eq_sum raw m g children 0, zero_add]
  · unfold consolidateValue
    rw [consolidateValue_eq_sum exampleRaw 3 "4-6" ["Prog_C", "Prog_C_CM", "Prog_C_SYC"] 0,
      zero_add]
    have e1 : specChildContribution exampleRaw 3 "4-6" "Prog_C" = 10 := rfl
    have e2 : specChildContribution exampleRaw 3 "4-6" "Prog_C_CM" = 5 := rfl
    have e3 : specChildContribution exampleRaw 3 "4-6" "Prog_C_SYC" = 0 := rfl
    simp only [List.map_cons, List.map_nil, List.sum_cons, List.sum_nil, e1, e2, e3]
    norm_num

/-- C4: consolidation over an observed-months set M produces exactly the
keys parent × M × age band — a key is in the consolidated map precisely when
it is the key of some rule's parent, some month of M and some age band, so
no key for a month outside M ever appears. -/
theorem consolidate_keys_product (raw : String → Option Val)
    (rules : List (String × List String)) (months : List Nat) (k : String) :
    k ∈ (consolidate_attendance_data raw rules months).map Prod.fst ↔
      ∃ pc ∈ rules, ∃ m ∈ months, ∃ g ∈ ageGroups, k = mkCKey pc.1 m g := by
  unfold consolidate_attendance_data
  constructor
  · intro hk
    rcases List.mem_map.mp hk with ⟨w, hw, hwk⟩
    rcases List.mem_flatMap.mp hw with ⟨pc, hpc, hw2⟩
    rcases List.mem_flatMap.mp hw2 with ⟨m, hm, hw3⟩
    rcases List.mem_map.mp hw3 with ⟨g, hg, hwg⟩
    exact ⟨pc, hpc, m, hm, g, hg, by rw [← hwk, ← hwg]⟩
  · rintro ⟨pc, hpc, m, hm, g, hg, hk⟩
    refine List.mem_map.mpr ⟨(mkCKey pc.1 m g, consolidateValue raw pc.2 m g), ?_, hk.symm⟩
    exact List.mem_flatMap.mpr ⟨pc, hpc, List.mem_flatMap.mpr ⟨m, hm,
      List.mem_map.mpr ⟨g, hg, rfl⟩⟩⟩

theorem contribution_zero_of_unusable (raw : String → Option Val) (m : Nat)
    (g : String) (c : String) (h : usable (dictGet raw (mkCKey c m g)) = false) :
    specChildContribution raw m g c = 0 := by
  unfold dictGet at h
  unfold specChildContribution
  cases hv : raw (mkCKey c m g) with
  | none => rfl
  | some v =>
    cases v with
    | nan => rfl
    | num q =>
      rw [hv] at h
      simp only [Option.getD_some, usable, decide_eq_false_iff_not, not_not] at h
      simp [h]

/-- C8: for every processed (parent, month, age band) the parent's key is
present in the consolidated map with the consolidated sum as its value,
and when every child (parent included) lacks a usable raw value the stored
value is exactly 0 — present with value zero, never absent. -/
theorem consolidate_key_total_and_zero (raw : String → Option Val)
    (rules : List (String × List String)) (months : List Nat)
    (parent : String) (children : List String) (m : Nat) (g : String)
    (hpc : (parent, children) ∈ rules) (hm : m ∈ months) (hg : g ∈ ageGroups) :
    (mkCKey parent m g, consolidateValue raw children m g) ∈
      consolidate_attendance_data raw rules months ∧
    ((∀ c ∈ children, usable (dictGet raw (mkCKey c m g)) = false) →
      consolidateValue raw children m g = 0) := by
  constructor
  · unfold consolidate_attendance_data
    exact List.mem_flatMap.mpr ⟨(parent, children), hpc, List.mem_flatMap.mpr ⟨m, hm,
      List.mem_map.mpr ⟨g, hg, rfl⟩⟩⟩
  · intro hz
    unfold consolidateValue
    rw [consolidateValue_eq_sum raw m g children 0, zero_add]
    refine List.sum_eq_zero ?_
    intro x hx
    rcases List.mem_map.mp hx with ⟨c, hc, hcx⟩
    rw [← hcx]
    exact contribution_zero_of_unusable raw m g c (hz c hc)

theorem consolidate_key_total_and_zero_witness :
    (mkCKey "Prog_J" 9 "TK-3", consolidateValue (fun _ => none) ["Prog_J"] 9 "TK-3") ∈
      consolidate_attendance_data (fun _ => none) program_consolidation_rules [9] ∧
    ((∀ c ∈ ["Prog_J"], usable (dictGet (fun _ => none) (mkCKey c 9 "TK-3")) = false) →
      consolidateValue (fun _ => none) ["Prog_J"] 9 "TK-3" = 0) :=
  consolidate_key_total_and_zero (fun _ => none) program_consolidation_rules [9]
    "Prog_J" ["Prog_J"] 9 "TK-3" (by decide) (by decide) (by decide)

end PADC
